import Mathlib

/-!
# Verification of the heterograph index / mini-batch sampling core

A shallow embedding of the multi-format relation storage (COO/CSR/CSC),
the memory-residency operations (`to`, `pin_memory`, `unpin`, `is_pinned`,
`formats`) of the heterograph index, and the neighbor sampler and
mini-batch dataloader, together with proofs of the spec's claims about
them.
-/

/-- The three canonical physical formats of a relation's edge set. -/
inductive Fmt
  | coo
  | csr
  | csc
deriving DecidableEq, Repr

/-- Modelled from the spec: COO storage — parallel arrays of (src-id, dst-id)
pairs, order-preserving, the canonical insertion format.  (The core that
defines it is not under `src/`; only its tests and callers are.) -/
structure COOMatrix where
  src : List Nat
  dst : List Nat
deriving DecidableEq, Repr

/-- The edge list of a COO matrix: the zip of the parallel arrays. -/
def COOMatrix.edges (c : COOMatrix) : List (Nat × Nat) :=
  c.src.zip c.dst

/-- Modelled from the spec: compressed-sparse storage, used both
row-compressed by source id (CSR) and column-compressed by destination id
(CSC).  `indptr` is the prefix-sum index, `indices` the concatenated
buckets. -/
structure CSRMatrix where
  indptr : List Nat
  indices : List Nat
deriving DecidableEq, Repr

/-- Sum of the lengths of the first `i` buckets (the prefix-sum index). -/
def prefixLen (buckets : List (List Nat)) (i : Nat) : Nat :=
  ((buckets.take i).map List.length).sum

/-- Build a compressed matrix from per-key buckets: `indptr` is the
prefix-sum of bucket sizes, `indices` the concatenation of the buckets. -/
def mkCSR (buckets : List (List Nat)) : CSRMatrix :=
  { indptr := (List.range (buckets.length + 1)).map (prefixLen buckets),
    indices := buckets.flatten }

/-- Modelled from the spec: COO→CSR — bucket edges by src id into a
prefix-sum index (standard compressed-sparse construction). -/
def cooToCSR (nrows : Nat) (c : COOMatrix) : CSRMatrix :=
  mkCSR ((List.range nrows).map
    (fun r => (c.edges.filter (fun e => e.1 == r)).map Prod.snd))

/-- Modelled from the spec: COO→CSC — bucket edges by dst id into a
prefix-sum index; stored as the CSR of the transposed edge set. -/
def cooToCSC (ncols : Nat) (c : COOMatrix) : CSRMatrix :=
  cooToCSR ncols { src := c.dst, dst := c.src }

/-- The `r`-th compressed row: the slice `indices[indptr[r] .. indptr[r+1])`. -/
def CSRMatrix.row (m : CSRMatrix) (r : Nat) : List Nat :=
  (m.indices.drop (m.indptr.getD r 0)).take
    (m.indptr.getD (r + 1) 0 - m.indptr.getD r 0)

/-- Modelled from the spec: CSR→COO — expand compressed rows back to
(src, dst) pairs. -/
def csrToCOO (nrows : Nat) (m : CSRMatrix) : COOMatrix :=
  let pairs := (List.range nrows).flatMap (fun r => (m.row r).map (fun c => (r, c)))
  { src := pairs.map Prod.fst, dst := pairs.map Prod.snd }

/-- Modelled from the spec: CSC→COO — expand compressed columns back to
(src, dst) pairs (the transpose of `csrToCOO`). -/
def cscToCOO (ncols : Nat) (m : CSRMatrix) : COOMatrix :=
  let p := csrToCOO ncols m
  { src := p.dst, dst := p.src }

/- ### Bucketing lemmas -/

theorem zip_map_fst_snd (l : List (Nat × Nat)) :
    (l.map Prod.fst).zip (l.map Prod.snd) = l := by
  induction l with
  | nil => rfl
  | cons a l ih => simp [List.zip, ih]

theorem prefixLen_zero (buckets : List (List Nat)) : prefixLen buckets 0 = 0 := rfl

theorem prefixLen_cons_succ (b : List Nat) (bs : List (List Nat)) (r : Nat) :
    prefixLen (b :: bs) (r + 1) = b.length + prefixLen bs r := by
  simp [prefixLen, List.take_succ_cons]

theorem mkCSR_indptr_getD (buckets : List (List Nat)) (r : Nat)
    (h : r ≤ buckets.length) :
    (mkCSR buckets).indptr.getD r 0 = prefixLen buckets r := by
  have hr : r < buckets.length + 1 := Nat.lt_succ_of_le h
  simp [mkCSR, List.getD, List.getElem?_map, List.getElem?_range hr]

theorem flatten_drop_prefixLen (buckets : List (List Nat)) (r : Nat) :
    buckets.flatten.drop (prefixLen buckets r) = (buckets.drop r).flatten := by
  induction r generalizing buckets with
  | zero => simp [prefixLen_zero]
  | succ r ih =>
    cases buckets with
    | nil => simp [prefixLen]
    | cons b bs =>
      rw [prefixLen_cons_succ]
      show (b ++ bs.flatten).drop (b.length + prefixLen bs r) = (bs.drop r).flatten
      rw [List.drop_append, ih]

theorem prefixLen_succ_sub (buckets : List (List Nat)) (r : Nat)
    (h : r < buckets.length) :
    prefixLen buckets (r + 1) - prefixLen buckets r = (buckets.getD r []).length := by
  induction buckets generalizing r with
  | nil => simp at h
  | cons b bs ih =>
    cases r with
    | zero => simp [prefixLen, List.take_succ_cons]
    | succ r =>
      rw [prefixLen_cons_succ, prefixLen_cons_succ, Nat.add_sub_add_left]
      exact ih r (Nat.lt_of_succ_lt_succ h)

theorem mkCSR_row (buckets : List (List Nat)) (r : Nat) (h : r < buckets.length) :
    (mkCSR buckets).row r = buckets.getD r [] := by
  unfold CSRMatrix.row
  rw [mkCSR_indptr_getD buckets r (Nat.le_of_lt h),
      mkCSR_indptr_getD buckets (r + 1) h]
  have hidx : (mkCSR buckets).indices = buckets.flatten := rfl
  rw [hidx, flatten_drop_prefixLen, prefixLen_succ_sub buckets r h]
  have hdrop : buckets.drop r = buckets.getD r [] :: buckets.drop (r + 1) := by
    rw [List.drop_eq_getElem_cons h]
    simp [List.getD, List.getElem?_eq_getElem h]
  rw [hdrop]
  show (buckets.getD r [] ++ (buckets.drop (r + 1)).flatten).take
    (buckets.getD r []).length = buckets.getD r []
  exact List.take_left _ _

theorem getD_map_range {α : Type} (f : Nat → α) (n r : Nat) (h : r < n) (d : α) :
    ((List.range n).map f).getD r d = f r := by
  simp [List.getD, List.getElem?_map, List.getElem?_range h]

theorem count_partition [BEq (Nat × Nat)] [LawfulBEq (Nat × Nat)]
    (es : List (Nat × Nat)) (p : Nat × Nat) (n : Nat) :
    ((List.range n).flatMap (fun r => es.filter (fun e => e.1 == r))).count p
      = if p.1 < n then es.count p else 0 := by
  induction n with
  | zero => simp
  | succ n ih =>
    rw [List.range_succ, List.flatMap_append, List.count_append, ih]
    simp only [List.flatMap_cons, List.flatMap_nil, List.append_nil]
    by_cases h : p.1 < n
    · rw [if_pos h, if_pos (Nat.lt_succ_of_lt h)]
      have hz : (es.filter (fun e => e.1 == n)).count p = 0 := by
        rw [List.count_eq_zero]
        intro hmem
        have := (List.mem_filter.mp hmem).2
        simp at this
        omega
      omega
    · by_cases h2 : p.1 = n
      · rw [if_neg h, if_pos (by omega)]
        have hc : (es.filter (fun e => e.1 == n)).count p = es.count p :=
          List.count_filter (by simp [h2])
        omega
      · rw [if_neg h, if_neg (by omega)]
        have hz : (es.filter (fun e => e.1 == n)).count p = 0 := by
          rw [List.count_eq_zero]
          intro hmem
          have := (List.mem_filter.mp hmem).2
          simp at this
          omega
        omega

theorem partition_perm (es : List (Nat × Nat)) (n : Nat)
    (hs : ∀ e ∈ es, e.1 < n) :
    ((List.range n).flatMap (fun r => es.filter (fun e => e.1 == r))).Perm es := by
  rw [List.perm_iff_count]
  intro p
  have hcp := @count_partition instBEqOfDecidableEq instLawfulBEq es p n
  rw [hcp]
  by_cases h : p.1 < n
  · rw [if_pos h]
  · rw [if_neg h]
    by_cases hp : p ∈ es
    · exact absurd (hs p hp) h
    · rw [@List.count_eq_zero _ instBEqOfDecidableEq instLawfulBEq _ _ |>.mpr hp]

theorem csrToCOO_edges (n : Nat) (m : CSRMatrix) :
    (csrToCOO n m).edges
      = (List.range n).flatMap (fun r => (m.row r).map (fun c => (r, c))) := by
  unfold csrToCOO COOMatrix.edges
  exact zip_map_fst_snd _

theorem csr_roundtrip_perm (n : Nat) (c : COOMatrix)
    (hs : ∀ e ∈ c.edges, e.1 < n) :
    (csrToCOO n (cooToCSR n c)).edges.Perm c.edges := by
  rw [csrToCOO_edges]
  have hrow : ∀ r ∈ List.range n,
      ((cooToCSR n c).row r).map (fun d => (r, d))
        = c.edges.filter (fun e => e.1 == r) := by
    intro r hr
    have hrn : r < n := List.mem_range.mp hr
    have hlen : r < ((List.range n).map
        (fun r => (c.edges.filter (fun e => e.1 == r)).map Prod.snd)).length := by
      simp [hrn]
    rw [cooToCSR, mkCSR_row _ _ hlen, getD_map_range _ _ _ hrn]
    rw [List.map_map]
    have hpt : ∀ e ∈ c.edges.filter (fun e => e.1 == r),
        ((fun d => (r, d)) ∘ Prod.snd) e = id e := by
      intro e he
      have := (List.mem_filter.mp he).2
      simp at this
      subst this
      simp [Function.comp]
    rw [List.map_congr_left hpt, List.map_id]
  have heq : ((List.range n).flatMap (fun r => ((cooToCSR n c).row r).map (fun d => (r, d))))
      = (List.range n).flatMap (fun r => c.edges.filter (fun e => e.1 == r)) := by
    rw [List.flatMap_def, List.flatMap_def]
    exact congrArg List.flatten (List.map_congr_left hrow)
  rw [heq]
  exact partition_perm c.edges n hs

/-- Transpose a COO matrix: swap the roles of src and dst. -/
def swapCOO (c : COOMatrix) : COOMatrix :=
  { src := c.dst, dst := c.src }

theorem swapCOO_edges (c : COOMatrix) :
    (swapCOO c).edges = c.edges.map Prod.swap := by
  unfold swapCOO COOMatrix.edges
  exact (List.zip_swap c.src c.dst).symm

theorem csc_roundtrip_perm (n : Nat) (c : COOMatrix)
    (hd : ∀ e ∈ c.edges, e.2 < n) :
    (cscToCOO n (cooToCSC n c)).edges.Perm c.edges := by
  have h1 : cooToCSC n c = cooToCSR n (swapCOO c) := rfl
  have h2 : (cscToCOO n (cooToCSC n c)).edges
      = (csrToCOO n (cooToCSC n c)).edges.map Prod.swap := by
    show (swapCOO (csrToCOO n (cooToCSC n c))).edges = _
    exact swapCOO_edges _
  rw [h2, h1]
  have hb : ∀ e ∈ (swapCOO c).edges, e.1 < n := by
    intro e he
    rw [swapCOO_edges] at he
    obtain ⟨e', he', rfl⟩ := List.mem_map.mp he
    exact hd e' he'
  have hperm := (csr_roundtrip_perm n (swapCOO c) hb).map Prod.swap
  rw [swapCOO_edges] at hperm
  simpa using hperm

/-- Materialized format data: the physical payload of one canonical format. -/
inductive FmtData
  | coo (c : COOMatrix)
  | csr (m : CSRMatrix)
  | csc (m : CSRMatrix)
deriving DecidableEq, Repr

/-- Modelled from the spec: materializing a relation (given as its canonical
insertion-format COO together with the src/dst node-type counts) in one of
the three canonical formats.  The FormatManager that performs this is not
under `src/`. -/
def materialize (nSrc nDst : Nat) (c : COOMatrix) : Fmt → FmtData
  | .coo => .coo c
  | .csr => .csr (cooToCSR nSrc c)
  | .csc => .csc (cooToCSC nDst c)

/-- The multiset of (src, dst) pairs recovered from materialized format
data (compressed formats are expanded back to pairs). -/
def recoverEdges (nSrc nDst : Nat) : FmtData → Multiset (Nat × Nat)
  | .coo c => ↑c.edges
  | .csr m => ↑(csrToCOO nSrc m).edges
  | .csc m => ↑(cscToCOO nDst m).edges

theorem recover_materialize (nSrc nDst : Nat) (c : COOMatrix)
    (hs : ∀ e ∈ c.edges, e.1 < nSrc) (hd : ∀ e ∈ c.edges, e.2 < nDst) :
    ∀ f, recoverEdges nSrc nDst (materialize nSrc nDst c f) = ↑c.edges := by
  intro f
  cases f with
  | coo => rfl
  | csr => exact Multiset.coe_eq_coe.mpr (csr_roundtrip_perm nSrc c hs)
  | csc => exact Multiset.coe_eq_coe.mpr (csc_roundtrip_perm nDst c hd)

/-- C2: for every relation and every pair of canonical formats (F1, F2)
among COO, CSR, CSC, the edge multiset recovered from the relation
materialized in F1 equals the one recovered from F2: format conversion
never changes the multiset of (src, dst) pairs. -/
theorem format_equivalence (nSrc nDst : Nat) (c : COOMatrix)
    (hs : ∀ e ∈ c.edges, e.1 < nSrc) (hd : ∀ e ∈ c.edges, e.2 < nDst)
    (f1 f2 : Fmt) :
    recoverEdges nSrc nDst (materialize nSrc nDst c f1)
      = recoverEdges nSrc nDst (materialize nSrc nDst c f2) := by
  rw [recover_materialize nSrc nDst c hs hd f1,
      recover_materialize nSrc nDst c hs hd f2]

/-- Witness for C2 at the `plays` relation of the test heterograph
(3 users, 2 games, edges ([0,1,2,1],[0,0,1,1])), comparing CSR with CSC. -/
theorem format_equivalence_witness :
    (∀ e ∈ (COOMatrix.mk [0,1,2,1] [0,0,1,1]).edges, e.1 < 3) ∧
    (∀ e ∈ (COOMatrix.mk [0,1,2,1] [0,0,1,1]).edges, e.2 < 2) ∧
    recoverEdges 3 2 (materialize 3 2 (COOMatrix.mk [0,1,2,1] [0,0,1,1]) Fmt.csr)
      = recoverEdges 3 2 (materialize 3 2 (COOMatrix.mk [0,1,2,1] [0,0,1,1]) Fmt.csc) :=
  ⟨by decide, by decide,
    format_equivalence 3 2 (COOMatrix.mk [0,1,2,1] [0,0,1,1])
      (by decide) (by decide) Fmt.csr Fmt.csc⟩

/- ### Memory residency and the heterograph index aggregate -/

/-- Device residency: host (CPU) or a specific accelerator. -/
inductive Device
  | host
  | cuda (idx : Nat)
deriving DecidableEq, Repr

/-- Graph-wide id type, fixed at construction. -/
inductive IdType
  | int32
  | int64
deriving DecidableEq, Repr

/-- Bit width of an id type. -/
def IdType.width : IdType → Nat
  | .int32 => 32
  | .int64 => 64

/-- Error kinds raised by the core. -/
inductive DGLError
  | OutOfRangeId
  | InvalidResidency
  | InconsistentRelation
  | ShapeMismatch
deriving DecidableEq, Repr

/-- Modelled from the spec: per-relation adjacency storage together with
the FormatManager's lazily materialized format caches (the core that
defines RelationStore/FormatManager is not under `src/`). -/
structure RelationStore where
  nSrc : Nat
  nDst : Nat
  coo : Option COOMatrix
  csr : Option CSRMatrix
  csc : Option CSRMatrix
deriving DecidableEq, Repr

/-- Whether format `f` is already materialized on the store. -/
def RelationStore.hasFormat (s : RelationStore) : Fmt → Bool
  | .coo => s.coo.isSome
  | .csr => s.csr.isSome
  | .csc => s.csc.isSome

/-- The canonical COO view of a store: the cached COO when present,
otherwise expanded from a compressed cache (CSR↔CSC go via COO). -/
def RelationStore.getCOO (s : RelationStore) : COOMatrix :=
  match s.coo with
  | some c => c
  | none => match s.csr with
    | some m => csrToCOO s.nSrc m
    | none => match s.csc with
      | some m => cscToCOO s.nDst m
      | none => { src := [], dst := [] }

/-- Modelled from the spec: `ensure_format(store, target_format)` — return a
store exposing the target format, by reference when already materialized,
else derived and cached; derivation on inconsistent id ranges fails with
`OutOfRangeId`; success adds the new format and removes none. -/
def ensure_format (s : RelationStore) (f : Fmt) : Except DGLError RelationStore :=
  if s.hasFormat f then .ok s
  else
    let c := s.getCOO
    if c.edges.all (fun e => decide (e.1 < s.nSrc) && decide (e.2 < s.nDst)) then
      match f with
      | .coo => .ok { s with coo := some c }
      | .csr => .ok { s with csr := some (cooToCSR s.nSrc c) }
      | .csc => .ok { s with csc := some (cooToCSC s.nDst c) }
    else .error .OutOfRangeId

/-- Modelled from the spec: the single-format clone used by
`with-formats(f)`: an already-materialized `f` is shared by reference, a
missing one is computed fresh from the canonical COO. -/
def RelationStore.restrictTo (s : RelationStore) (f : Fmt) : RelationStore :=
  match f with
  | .coo => { nSrc := s.nSrc, nDst := s.nDst,
              coo := some s.getCOO, csr := none, csc := none }
  | .csr => { nSrc := s.nSrc, nDst := s.nDst, coo := none,
              csr := some (match s.csr with
                           | some m => m
                           | none => cooToCSR s.nSrc s.getCOO),
              csc := none }
  | .csc => { nSrc := s.nSrc, nDst := s.nDst, coo := none, csr := none,
              csc := some (match s.csc with
                           | some m => m
                           | none => cooToCSC s.nDst s.getCOO) }

/-- Modelled from the spec: the heterograph index aggregate — one
RelationStore per relation, a graph-wide id type fixed at construction, and
one graph-wide residency state (device; pinned, valid only on host). -/
structure HeteroGraphIndex where
  relations : List RelationStore
  idtype : IdType
  device : Device
  pinned : Bool
deriving DecidableEq, Repr

/-- `is_pinned()`: the graph-wide pin state. -/
def HeteroGraphIndex.is_pinned (g : HeteroGraphIndex) : Bool := g.pinned

/-- Modelled from the spec and the test's asserted behavior: `pin_memory()`
is out-of-place for graphs (the test's skip reason reads "Pinning graph
outplace only supported for PyTorch" and the test asserts the receiver
stays unpinned until rebound); it fails with `InvalidResidency` on a
device-resident graph and is an idempotent success on a host-resident
one. -/
def HeteroGraphIndex.pin_memory (g : HeteroGraphIndex) :
    Except DGLError HeteroGraphIndex :=
  if g.device = Device.host then .ok { g with pinned := true }
  else .error DGLError.InvalidResidency

/-- `unpin()`: clear the pin state. -/
def HeteroGraphIndex.unpin (g : HeteroGraphIndex) : HeteroGraphIndex :=
  { g with pinned := false }

/-- Modelled from the spec: `to(device)` — clone with new placement; device
residency is exclusive with pinning, so the result is never pinned. -/
def HeteroGraphIndex.copyTo (g : HeteroGraphIndex) (d : Device) :
    HeteroGraphIndex :=
  { g with device := d, pinned := false }

/-- Whether format `f` is materialized on every relation of the graph. -/
def HeteroGraphIndex.allHaveFormat (g : HeteroGraphIndex) (f : Fmt) : Bool :=
  g.relations.all (fun s => s.hasFormat f)

/-- Modelled from the spec: `formats(f)` — clone into format set `{f}`;
already-materialized formats are shared by reference (reuse preserves pin
state), not-yet-materialized ones are computed fresh and the resulting
graph is unpinned. -/
def HeteroGraphIndex.formats (g : HeteroGraphIndex) (f : Fmt) :
    HeteroGraphIndex :=
  { g with relations := g.relations.map (fun s => s.restrictTo f),
           pinned := g.pinned && g.allHaveFormat f }

/-- A store freshly constructed from raw edge lists: canonical COO only. -/
def mkStore (nSrc nDst : Nat) (src dst : List Nat) : RelationStore :=
  { nSrc := nSrc, nDst := nDst, coo := some { src := src, dst := dst },
    csr := none, csc := none }

/-- Modelled from the spec: graph construction from per-relation raw edge
lists — host resident, unpinned, canonical COO per relation. -/
def heterograph (stores : List RelationStore) (idt : IdType) :
    HeteroGraphIndex :=
  { relations := stores, idtype := idt, device := Device.host,
    pinned := false }

/-- The test heterograph of `create_test_heterograph` (3 users, 2 games,
2 developers; relations follows/plays/wishes/develops), on CPU. -/
def testGraph : HeteroGraphIndex :=
  heterograph
    [ mkStore 3 3 [0, 1] [1, 2],
      mkStore 3 2 [0, 1, 2, 1] [0, 0, 1, 1],
      mkStore 3 2 [0, 2] [1, 0],
      mkStore 2 2 [0, 1] [0, 1] ] IdType.int64

/-- The test graph after `g._graph = g._graph.pin_memory()`. -/
def testGraphPinned : HeteroGraphIndex :=
  { testGraph with pinned := true }

/-- C1: for a host-resident pinned graph, `formats(f)` returns a graph that
is still pinned when `f` is already materialized on the whole graph
(format reuse preserves pin state), and an unpinned graph when `f` is not
yet materialized (recomputation does not). -/
theorem formats_pin_state (g : HeteroGraphIndex) (f : Fmt)
    (hhost : g.device = Device.host) (hpin : g.is_pinned = true) :
    (g.allHaveFormat f = true → (g.formats f).is_pinned = true) ∧
    (g.allHaveFormat f = false → (g.formats f).is_pinned = false) := by
  constructor <;> intro h <;>
    simp [HeteroGraphIndex.formats, HeteroGraphIndex.is_pinned] at * <;>
    simp [hpin, h]

/-- Witness for C1 at the pinned test graph: `coo` is materialized on every
relation (so `formats coo` stays pinned), `csr` is not (so `formats csr`
is unpinned). -/
theorem formats_pin_state_witness :
    testGraphPinned.device = Device.host ∧
    testGraphPinned.is_pinned = true ∧
    testGraphPinned.allHaveFormat Fmt.coo = true ∧
    testGraphPinned.allHaveFormat Fmt.csr = false ∧
    (testGraphPinned.formats Fmt.coo).is_pinned = true ∧
    (testGraphPinned.formats Fmt.csr).is_pinned = false :=
  ⟨by decide, by decide, by decide, by decide,
    (formats_pin_state testGraphPinned Fmt.coo (by decide) (by decide)).1
      (by decide),
    (formats_pin_state testGraphPinned Fmt.csr (by decide) (by decide)).2
      (by decide)⟩

/-- C3: `pin_memory()` on a graph resident on a device (not host) fails
with the `InvalidResidency` error kind. -/
theorem pin_device_resident_fails (g : HeteroGraphIndex)
    (h : g.device ≠ Device.host) :
    g.pin_memory = Except.error DGLError.InvalidResidency := by
  simp [HeteroGraphIndex.pin_memory, h]

/-- Witness for C3: the pinned test graph moved to GPU 0 rejects
`pin_memory()`. -/
theorem pin_device_resident_fails_witness :
    (testGraphPinned.copyTo (Device.cuda 0)).device ≠ Device.host ∧
    (testGraphPinned.copyTo (Device.cuda 0)).pin_memory
      = Except.error DGLError.InvalidResidency :=
  ⟨by decide,
    pin_device_resident_fails (testGraphPinned.copyTo (Device.cuda 0))
      (by decide)⟩

/-- C4: for every graph (pinned or not), the graph returned by
`to(device)` reports `is_pinned() = false`: moving to a device implicitly
clears the pin state. -/
theorem copyTo_clears_pin (g : HeteroGraphIndex) (d : Device) :
    (g.copyTo d).is_pinned = false := rfl

/-- C5 counterexample: on the host-resident test graph, `pin_memory()`
succeeds, yet the receiver graph itself still reports
`is_pinned() = false` — the page-lock operation is out-of-place (the test
asserts exactly this before rebinding `g._graph`), so calling `pin()`
without rebinding does NOT make the same object pinned. -/
theorem pin_not_in_place :
    testGraph.device = Device.host ∧
    testGraph.pin_memory.isOk = true ∧
    testGraph.is_pinned = false := by
  decide

/-- C5 amended: the page-lock operation is out-of-place: `pin_memory()` on
a host-resident graph returns a new graph object reporting
`is_pinned() = true`; the receiver is left unchanged, so the caller must
rebind (`g._graph = g._graph.pin_memory()`). -/
theorem pin_memory_outplace (g : HeteroGraphIndex)
    (h : g.device = Device.host) :
    g.pin_memory = Except.ok { g with pinned := true } ∧
    ({ g with pinned := true } : HeteroGraphIndex).is_pinned = true := by
  simp [HeteroGraphIndex.pin_memory, h, HeteroGraphIndex.is_pinned]

/-- Witness for the amended C5 at the test graph. -/
theorem pin_memory_outplace_witness :
    testGraph.device = Device.host ∧
    testGraph.pin_memory = Except.ok testGraphPinned ∧
    testGraphPinned.is_pinned = true :=
  ⟨by decide,
    (pin_memory_outplace testGraph (by decide)).1,
    (pin_memory_outplace testGraph (by decide)).2⟩

/-- The empty homograph of the test (`dgl.graph(([], []))`): one relation
with zero edges. -/
def emptyHomograph (idt : IdType) : HeteroGraphIndex :=
  heterograph [mkStore 0 0 [] []] idt

/-- The test heterograph `g3` in which only one relation is empty
(`("a","b","c"): ([0,1],[1,2])`, `("c","d","c"): ([],[])`). -/
def oneEmptyHeterograph (idt : IdType) : HeteroGraphIndex :=
  heterograph [mkStore 2 3 [0, 1] [1, 2], mkStore 3 3 [] []] idt

/-- Modelled from the spec: graph-level format materialization (as done by
`create_formats_`): ensure format `f` on every relation. -/
def HeteroGraphIndex.ensureFormatAll (g : HeteroGraphIndex) (f : Fmt) :
    Except DGLError HeteroGraphIndex := do
  let rels ← g.relations.mapM (fun s => ensure_format s f)
  pure { g with relations := rels }

/-- C6: a relation with zero edges supports every format conversion, and
the entirely empty graph as well as the heterograph in which only one
relation is empty support every format conversion and every residency
operation (`to(device)`, `pin()`, `unpin()`, `is_pinned()`), without
error, for both 32- and 64-bit id types. -/
theorem empty_relation_safety (idt : IdType) (nS nD : Nat) (f : Fmt)
    (d : Device) :
    (ensure_format (mkStore nS nD [] []) f).isOk = true ∧
    ((emptyHomograph idt).ensureFormatAll f).isOk = true ∧
    (emptyHomograph idt).pin_memory
      = Except.ok { emptyHomograph idt with pinned := true } ∧
    ({ emptyHomograph idt with pinned := true } :
        HeteroGraphIndex).is_pinned = true ∧
    ((emptyHomograph idt).unpin).is_pinned = false ∧
    ((emptyHomograph idt).copyTo d).is_pinned = false ∧
    ((oneEmptyHeterograph idt).ensureFormatAll f).isOk = true ∧
    (oneEmptyHeterograph idt).pin_memory
      = Except.ok { oneEmptyHeterograph idt with pinned := true } ∧
    ({ oneEmptyHeterograph idt with pinned := true } :
        HeteroGraphIndex).is_pinned = true := by
  refine ⟨?_, ?_, ?_, rfl, rfl, rfl, ?_, ?_, rfl⟩
  · cases f <;> simp [ensure_format, mkStore, RelationStore.hasFormat,
      RelationStore.getCOO, COOMatrix.edges, Except.isOk, Except.toBool]
  · cases f <;> cases idt <;> rfl
  · cases idt <;> rfl
  · cases f <;> cases idt <;> rfl
  · cases idt <;> rfl

/- ### Neighbor sampler and mini-batch dataloader -/

/-- Modelled from the spec: the CSC view the NeighborSampler consumes — a
homogeneous graph given by its node count and its column-compressed
adjacency (the sampler/dataloader core is not under `src/`; only its
caller, the GraphSAGE example, is). -/
structure SampleGraph where
  numNodes : Nat
  csc : CSRMatrix
deriving DecidableEq, Repr

/-- The in-neighbors (sources of incoming edges) of destination node `d`,
read from the CSC view. -/
def SampleGraph.inNbrs (g : SampleGraph) (d : Nat) : List Nat :=
  g.csc.row d

/-- Modelled from the spec: selection of up to `fanout` incoming edges of
one destination node — all edges when there are at most `fanout` of them,
otherwise a without-replacement selection of exactly `fanout` edges whose
position is determined by the explicit random seed (the spec requires
explicit per-call seeding; which `fanout`-subset is drawn is the seed's
choice, modelled as a rotation).  `none` is full-neighbor (fanout = ∞). -/
def pickNeighbors (seed : Nat) (fanout : Option Nat) (xs : List Nat) :
    List Nat :=
  match fanout with
  | none => xs
  | some k => if xs.length ≤ k then xs else (xs.rotate (seed % xs.length)).take k

/-- One layer's sampled bipartite block: distinguished source and
destination node lists plus the sampled (src, dst) edges. -/
structure Block where
  srcNodes : List Nat
  dstNodes : List Nat
  edges : List (Nat × Nat)
deriving DecidableEq, Repr

/-- Modelled from the spec: sample one layer — for each destination node of
the current frontier select up to `fanout` incoming edges from the CSC
view; the sampled edges' source endpoints (after the destination nodes
themselves) form the deduplicated source node list. -/
def sampleBlock (g : SampleGraph) (seed : Nat) (fanout : Option Nat)
    (dst : List Nat) : Block :=
  let edges := dst.flatMap
    (fun d => (pickNeighbors seed fanout (g.inNbrs d)).map (fun s => (s, d)))
  { srcNodes := (dst ++ edges.map Prod.fst).dedup,
    dstNodes := dst,
    edges := edges }

/-- Modelled from the spec: the sampling recursion from the output layer
backward to the input layer; `fanoutsRev` is the per-layer fanout list
already reversed; each produced block is appended after the blocks of the
layers closer to the input. -/
def sampleLoop (g : SampleGraph) (seed : Nat) (fanoutsRev : List (Option Nat))
    (dst : List Nat) : List Block :=
  match fanoutsRev with
  | [] => []
  | f :: rest =>
    let blk := sampleBlock g seed f dst
    sampleLoop g seed rest blk.srcNodes ++ [blk]

/-- Modelled from the spec: the NeighborSampler — given seed nodes and
per-layer fanouts `[f1, …, fL]` (f1 for the layer closest to the raw input
features) it returns `blocks[0..L-1]` with `blocks[L-1]` closest to the
prediction targets. -/
def sample_blocks (g : SampleGraph) (seed : Nat) (fanouts : List (Option Nat))
    (seeds : List Nat) : List Block :=
  sampleLoop g seed fanouts.reverse seeds

/-- Fuel-indexed batching loop: take the next `b` elements as a batch while
elements remain (`fuel` bounds the number of batches; `l.length` always
suffices). -/
def chunkAux {α : Type} (b : Nat) : Nat → List α → List (List α)
  | 0, _ => []
  | fuel + 1, l =>
    if l.isEmpty then [] else l.take b :: chunkAux b fuel (l.drop b)

/-- Partition a list into consecutive batches of size `b` (the final batch
may be undersized). -/
def chunk {α : Type} (b : Nat) (l : List α) : List (List α) :=
  if b = 0 then [] else chunkAux b l.length l

/-- Modelled from the spec: the per-pass traversal order of the node-id
set — the set itself when shuffle is off; a permutation determined by the
explicit per-pass seed (modelled as a rotation) when shuffle is on. -/
def traversalOrder (shuffle : Bool) (seed : Nat) (ids : List Nat) :
    List Nat :=
  if shuffle then ids.rotate seed else ids

/-- Modelled from the spec: `drop_last` omits a final undersized batch. -/
def applyDropLast (dropLast : Bool) (b : Nat)
    (batches : List (List Nat)) : List (List Nat) :=
  if dropLast then
    match batches.getLast? with
    | some c => if c.length < b then batches.dropLast else batches
    | none => batches
  else batches

/-- Modelled from the spec: one full pass of the MiniBatchDataLoader —
partition the node-id set into batches, drive the sampler per batch, and
yield `(input_nodes, output_nodes, blocks)` triples; `output_nodes` is the
batch (the seed nodes), `input_nodes` the source node list of the block
closest to the raw input features. -/
def dataloader_pass (g : SampleGraph) (seed : Nat)
    (fanouts : List (Option Nat)) (ids : List Nat) (b : Nat)
    (shuffle dropLast : Bool) :
    List (List Nat × List Nat × List Block) :=
  let order := traversalOrder shuffle seed ids
  (applyDropLast dropLast b (chunk b order)).map (fun batch =>
    let blocks := sample_blocks g seed fanouts batch
    (match blocks.head? with
     | some blk => blk.srcNodes
     | none => batch,
     batch, blocks))

/- ### Sampler ordering (C10) -/

theorem sampleLoop_spec (g : SampleGraph) (seed : Nat) :
    ∀ (frev : List (Option Nat)) (dst : List Nat),
      (sampleLoop g seed frev dst).length = frev.length ∧
      List.Chain' (fun a b => a.dstNodes = b.srcNodes)
        (sampleLoop g seed frev dst) ∧
      (sampleLoop g seed frev dst).getLast?.map Block.dstNodes
        = if frev.isEmpty then none else some dst := by
  intro frev
  induction frev with
  | nil => intro dst; simp [sampleLoop]
  | cons f rest ih =>
    intro dst
    obtain ⟨ihlen, ihchain, ihlast⟩ := ih (sampleBlock g seed f dst).srcNodes
    refine ⟨?_, ?_, ?_⟩
    · simp [sampleLoop, ihlen]
    · show List.Chain' _ (sampleLoop g seed rest
        (sampleBlock g seed f dst).srcNodes ++ [sampleBlock g seed f dst])
      apply List.chain'_append.mpr
      refine ⟨ihchain, List.chain'_singleton _, ?_⟩
      intro x hx y hy
      simp only [List.head?_cons, Option.mem_def, Option.some.injEq] at hy
      subst hy
      cases hrest : rest.isEmpty with
      | true =>
        rw [hrest, if_pos rfl] at ihlast
        have hnone : (sampleLoop g seed rest
            (sampleBlock g seed f dst).srcNodes).getLast? = none :=
          Option.map_eq_none'.mp ihlast
        rw [Option.mem_def, hnone] at hx
        cases hx
      | false =>
        rw [hrest, if_neg Bool.false_ne_true] at ihlast
        rw [Option.mem_def] at hx
        rw [hx] at ihlast
        simp at ihlast
        exact ihlast
    · show (sampleLoop g seed rest (sampleBlock g seed f dst).srcNodes
        ++ [sampleBlock g seed f dst]).getLast?.map Block.dstNodes = _
      rw [List.getLast?_concat]
      simp [sampleBlock]

/-- C10: for every sampling request with `L` per-layer fanouts the sampler
returns exactly `L` blocks; consecutive blocks chain (each block's
destination node list is the next block's source node list) and
`blocks[L-1]`, the block closest to the prediction targets, has the
request's seed nodes as its destination node list — so features are read
at `blocks[0]`'s sources and labels at `blocks[L-1]`'s destinations in
forward order. -/
theorem sampler_block_order (g : SampleGraph) (seed : Nat)
    (fanouts : List (Option Nat)) (seeds : List Nat) :
    (sample_blocks g seed fanouts seeds).length = fanouts.length ∧
    List.Chain' (fun a b => a.dstNodes = b.srcNodes)
      (sample_blocks g seed fanouts seeds) ∧
    (fanouts ≠ [] →
      (sample_blocks g seed fanouts seeds).getLast?.map Block.dstNodes
        = some seeds) := by
  unfold sample_blocks
  obtain ⟨hlen, hchain, hlast⟩ := sampleLoop_spec g seed fanouts.reverse seeds
  refine ⟨by rw [hlen]; exact List.length_reverse _, hchain, fun hne => ?_⟩
  rw [hlast]
  simp [List.isEmpty_iff, hne]

/-- The 10-node path graph (edges i → i+1) used as the concrete sampling
graph of the contiguity scenario, with its CSC view materialized. -/
def exampleGraph : SampleGraph :=
  { numNodes := 10,
    csc := cooToCSC 10 { src := [0, 1, 2, 3, 4, 5, 6, 7, 8],
                         dst := [1, 2, 3, 4, 5, 6, 7, 8, 9] } }

/-- Witness for C10 on the example graph with two layers of fanout 2. -/
theorem sampler_block_order_witness :
    ([some 2, some 2] : List (Option Nat)) ≠ [] ∧
    (sample_blocks exampleGraph 0 [some 2, some 2] [5, 6]).getLast?.map
      Block.dstNodes = some [5, 6] :=
  ⟨by decide,
    (sampler_block_order exampleGraph 0 [some 2, some 2] [5, 6]).2.2
      (by decide)⟩

/- ### Sampling size bound (C9) -/

theorem pickNeighbors_some (seed k : Nat) (xs : List Nat) :
    pickNeighbors seed (some k) xs
      = if xs.length ≤ k then xs else (xs.rotate (seed % xs.length)).take k :=
  rfl

theorem pickNeighbors_length (seed k : Nat) (xs : List Nat) :
    (pickNeighbors seed (some k) xs).length = min xs.length k := by
  rw [pickNeighbors_some]
  by_cases h : xs.length ≤ k
  · rw [if_pos h]; omega
  · rw [if_neg h, List.length_take, List.length_rotate]; omega

theorem pickNeighbors_count_le (seed : Nat) (f : Option Nat) (xs : List Nat)
    (s : Nat) :
    (pickNeighbors seed f xs).count s ≤ xs.count s := by
  cases f with
  | none => exact Nat.le_refl _
  | some k =>
    rw [pickNeighbors_some]
    by_cases h : xs.length ≤ k
    · rw [if_pos h]
    · rw [if_neg h]
      calc ((xs.rotate (seed % xs.length)).take k).count s
          ≤ (xs.rotate (seed % xs.length)).count s :=
            (List.take_sublist _ _).count_le s
        _ = xs.count s := (List.rotate_perm xs _).count_eq s

theorem pickNeighbors_all (seed k : Nat) (xs : List Nat)
    (h : xs.length ≤ k) :
    pickNeighbors seed (some k) xs = xs := by
  rw [pickNeighbors_some, if_pos h]

theorem flatMap_pick_filter (sel : Nat → List Nat) (d : Nat) :
    ∀ dst : List Nat, dst.Nodup →
      (dst.flatMap (fun x => (sel x).map (fun s => (s, x)))).filter
          (fun e => e.2 == d)
        = if d ∈ dst then (sel d).map (fun s => (s, d)) else [] := by
  intro dst
  induction dst with
  | nil => simp
  | cons a rest ih =>
    intro hnd
    rw [List.flatMap_cons, List.filter_append, ih hnd.of_cons]
    by_cases had : a = d
    · subst had
      have hni : a ∉ rest := (List.nodup_cons.mp hnd).1
      rw [if_neg hni, if_pos (List.mem_cons_self a rest), List.append_nil]
      rw [List.filter_map]
      have hcomp : ((fun e : Nat × Nat => e.2 == a) ∘ fun s : Nat => (s, a))
          = fun _ => true := by
        funext s
        simp
      rw [hcomp, List.filter_true]
    · have hchunk : ((sel a).map (fun s => (s, a))).filter
          (fun e => e.2 == d) = [] := by
        rw [List.filter_map]
        have hcomp : ((fun e : Nat × Nat => e.2 == d) ∘ fun s : Nat => (s, a))
            = fun _ => false := by
          funext s
          simp [had]
        rw [hcomp, List.filter_false, List.map_nil]
      rw [hchunk, List.nil_append]
      have hmemiff : (d ∈ a :: rest) ↔ (d ∈ rest) := by
        constructor
        · intro h
          rcases List.mem_cons.mp h with h1 | h2
          · exact absurd h1.symm had
          · exact h2
        · exact fun h => List.mem_cons_of_mem a h
      by_cases hdr : d ∈ rest
      · rw [if_pos hdr, if_pos (hmemiff.mpr hdr)]
      · rw [if_neg hdr, if_neg (fun h => hdr (hmemiff.mp h))]

/-- The sources of a block's sampled incoming edges at destination `d`. -/
def blockInEdgesOf (blk : Block) (d : Nat) : List Nat :=
  (blk.edges.filter (fun e => e.2 == d)).map Prod.fst

/-- C9: in a sampled block with fanout `k`, each destination node has at
most `k` incoming edges; they are selected without replacement from the
CSC view (the selection is a sub-multiset of the node's in-neighbor list);
and when the node's true in-degree is at most `k`, all of its incoming
edges are present. -/
theorem sampling_size_bound (g : SampleGraph) (seed k : Nat)
    (dst : List Nat) (hnd : dst.Nodup) (d : Nat) :
    (blockInEdgesOf (sampleBlock g seed (some k) dst) d).length ≤ k ∧
    (∀ s, (blockInEdgesOf (sampleBlock g seed (some k) dst) d).count s
        ≤ (g.inNbrs d).count s) ∧
    ((g.inNbrs d).length ≤ k → d ∈ dst →
      blockInEdgesOf (sampleBlock g seed (some k) dst) d = g.inNbrs d) := by
  have hedges : (sampleBlock g seed (some k) dst).edges
      = dst.flatMap (fun x =>
          (pickNeighbors seed (some k) (g.inNbrs x)).map (fun s => (s, x))) :=
    rfl
  unfold blockInEdgesOf
  rw [hedges,
      flatMap_pick_filter (fun x => pickNeighbors seed (some k) (g.inNbrs x))
        d dst hnd]
  by_cases hmem : d ∈ dst
  · rw [if_pos hmem, List.map_map]
    have hfst : (Prod.fst ∘ fun s : Nat => (s, d)) = id := rfl
    rw [hfst, List.map_id]
    refine ⟨?_, ?_, ?_⟩
    · rw [pickNeighbors_length]; omega
    · intro s; exact pickNeighbors_count_le seed (some k) (g.inNbrs d) s
    · intro hlen _
      exact pickNeighbors_all seed k (g.inNbrs d) hlen
  · rw [if_neg hmem]
    exact ⟨by simp, fun s => by simp, fun _ hd => absurd hd hmem⟩

/-- Witness for C9 on the path graph with fanout 2 at destination 5 of the
frontier [3, 5]. -/
theorem sampling_size_bound_witness :
    ([3, 5] : List Nat).Nodup ∧
    (blockInEdgesOf (sampleBlock exampleGraph 0 (some 2) [3, 5]) 5).length
      ≤ 2 :=
  ⟨by decide, (sampling_size_bound exampleGraph 0 2 [3, 5] (by decide) 5).1⟩

/- ### Dataloader coverage (C8) -/

theorem chunkAux_flatten {α : Type} (b : Nat) (hb : b ≠ 0) :
    ∀ (fuel : Nat) (l : List α), l.length ≤ fuel →
      (chunkAux b fuel l).flatten = l := by
  intro fuel
  induction fuel with
  | zero =>
    intro l hl
    have hnil : l = [] := List.eq_nil_of_length_eq_zero (Nat.le_zero.mp hl)
    subst hnil
    rfl
  | succ fuel ih =>
    intro l hl
    cases l with
    | nil => rfl
    | cons x xs =>
      show ((x :: xs).take b :: chunkAux b fuel ((x :: xs).drop b)).flatten
        = x :: xs
      rw [List.flatten_cons, ih ((x :: xs).drop b) ?_, List.take_append_drop]
      rw [List.length_drop]
      simp only [List.length_cons] at hl ⊢
      omega

theorem chunk_flatten {α : Type} (b : Nat) (hb : b ≠ 0) (l : List α) :
    (chunk b l).flatten = l := by
  unfold chunk
  rw [if_neg hb]
  exact chunkAux_flatten b hb l.length l (Nat.le_refl _)

theorem applyDropLast_false (b : Nat) (cs : List (List Nat)) :
    applyDropLast false b cs = cs := rfl

theorem applyDropLast_true (b : Nat) (cs : List (List Nat)) :
    applyDropLast true b cs
      = match cs.getLast? with
        | some c => if c.length < b then cs.dropLast else cs
        | none => cs := rfl

theorem map_out_triple {α β γ : Type} (f1 : α → β) (f3 : α → γ)
    (l : List α) :
    (l.map (fun x => (f1 x, x, f3 x))).map (fun t => t.2.1) = l := by
  rw [List.map_map]
  have hcomp : ((fun t : β × α × γ => t.2.1) ∘ fun x => (f1 x, x, f3 x))
      = id := rfl
  rw [hcomp, List.map_id]

theorem dataloader_pass_outputs (g : SampleGraph) (seed : Nat)
    (fanouts : List (Option Nat)) (ids : List Nat) (b : Nat)
    (shuffle dropLast : Bool) :
    (dataloader_pass g seed fanouts ids b shuffle dropLast).map
        (fun t => t.2.1)
      = applyDropLast dropLast b
          (chunk b (traversalOrder shuffle seed ids)) := by
  simp only [dataloader_pass]
  exact map_out_triple _ _ _

/-- C8: one full pass with `drop_last = false` yields batches whose
`output_nodes`, concatenated, are a permutation of the node-id set (every
id covered exactly once); with `drop_last = true` the concatenation
together with at most one final undersized batch (fewer than `b` ids) is
such a permutation. -/
theorem dataloader_coverage (g : SampleGraph) (seed : Nat)
    (fanouts : List (Option Nat)) (ids : List Nat) (b : Nat)
    (shuffle : Bool) (hb : 0 < b) :
    ((dataloader_pass g seed fanouts ids b shuffle false).map
        (fun t => t.2.1)).flatten.Perm ids ∧
    (∃ rest : List Nat, rest.length < b ∧
      (((dataloader_pass g seed fanouts ids b shuffle true).map
          (fun t => t.2.1)).flatten ++ rest).Perm ids) := by
  have hb' : b ≠ 0 := by omega
  have horder : (traversalOrder shuffle seed ids).Perm ids := by
    cases shuffle
    · exact List.Perm.refl ids
    · exact List.rotate_perm ids seed
  have hflat : (chunk b (traversalOrder shuffle seed ids)).flatten
      = traversalOrder shuffle seed ids := chunk_flatten b hb' _
  constructor
  · rw [dataloader_pass_outputs, applyDropLast_false, hflat]
    exact horder
  · cases hc : (chunk b (traversalOrder shuffle seed ids)).getLast? with
    | none =>
      have happ : applyDropLast true b
          (chunk b (traversalOrder shuffle seed ids))
          = chunk b (traversalOrder shuffle seed ids) := by
        rw [applyDropLast_true, hc]
      refine ⟨[], hb, ?_⟩
      rw [dataloader_pass_outputs, happ, hflat, List.append_nil]
      exact horder
    | some c =>
      have happ : applyDropLast true b
          (chunk b (traversalOrder shuffle seed ids))
          = if c.length < b
            then (chunk b (traversalOrder shuffle seed ids)).dropLast
            else chunk b (traversalOrder shuffle seed ids) := by
        rw [applyDropLast_true, hc]
      rw [dataloader_pass_outputs, happ]
      by_cases hlen : c.length < b
      · rw [if_pos hlen]
        obtain ⟨cs', hcs'⟩ := List.getLast?_eq_some_iff.mp hc
        refine ⟨c, hlen, ?_⟩
        rw [hcs', List.dropLast_concat]
        have hcat : cs'.flatten ++ c = (cs' ++ [c]).flatten := by simp
        rw [hcat, ← hcs', hflat]
        exact horder
      · rw [if_neg hlen]
        refine ⟨[], hb, ?_⟩
        rw [hflat, List.append_nil]
        exact horder

/-- Witness for C8: a full pass over ids [0, 10) with batch size 4. -/
theorem dataloader_coverage_witness :
    (0 : Nat) < 4 ∧
    ((dataloader_pass exampleGraph 0 [none] (List.range 10) 4 false
        false).map (fun t => t.2.1)).flatten.Perm (List.range 10) :=
  ⟨by decide,
    (dataloader_coverage exampleGraph 0 [none] (List.range 10) 4 false
      (by decide)).1⟩

/- ### Output-node contiguity in full-neighbor inference (C7) -/

theorem take_range' (s n b : Nat) :
    (List.range' s n).take b = List.range' s (min b n) := by
  induction n generalizing s b with
  | zero => simp
  | succ n ih =>
    cases b with
    | zero => simp
    | succ b =>
      simp [List.range'_succ, List.take_succ_cons, ih, Nat.succ_min_succ]

theorem drop_range' (s n b : Nat) :
    (List.range' s n).drop b = List.range' (s + min b n) (n - b) := by
  induction n generalizing s b with
  | zero => simp
  | succ n ih =>
    cases b with
    | zero => simp
    | succ b =>
      simp [List.range'_succ, List.drop_succ_cons, ih, Nat.succ_min_succ]
      omega

theorem chunkAux_range'_mem (b : Nat) :
    ∀ (fuel s n : Nat) (c : List Nat),
      c ∈ chunkAux b fuel (List.range' s n) →
      ∃ s' k, c = List.range' s' k := by
  intro fuel
  induction fuel with
  | zero =>
    intro s n c hc
    rw [show chunkAux b 0 (List.range' s n) = [] from rfl] at hc
    cases hc
  | succ fuel ih =>
    intro s n c hc
    cases n with
    | zero =>
      rw [show chunkAux b (fuel + 1) (List.range' s 0) = [] from rfl] at hc
      cases hc
    | succ n =>
      rw [show chunkAux b (fuel + 1) (List.range' s (n + 1))
          = (List.range' s (n + 1)).take b
            :: chunkAux b fuel ((List.range' s (n + 1)).drop b) from rfl] at hc
      rcases List.mem_cons.mp hc with h1 | h2
      · exact ⟨s, min b (n + 1), by rw [h1, take_range']⟩
      · rw [drop_range'] at h2
        exact ih _ _ c h2

theorem chunk_range'_mem (b s n : Nat) (c : List Nat)
    (hc : c ∈ chunk b (List.range' s n)) : ∃ s' k, c = List.range' s' k := by
  unfold chunk at hc
  by_cases hb : b = 0
  · rw [if_pos hb] at hc
    cases hc
  · rw [if_neg hb] at hc
    exact chunkAux_range'_mem b _ s n c hc

/-- C7: in full-neighbor (exact inference) mode — a single layer with
fanout ∞ — with shuffle disabled over the node-id range
`[0, num_nodes)`, every batch yielded by the dataloader has an
`output_nodes` sequence that is a contiguous increasing id range
(`range' s k`), and it is exactly the destination node list of the final
layer's block, so `y[output_nodes] = h` writes a contiguous row range. -/
theorem inference_output_contiguous (g : SampleGraph) (seed b : Nat)
    (hb : 0 < b) (t : List Nat × List Nat × List Block)
    (ht : t ∈ dataloader_pass g seed [none] (List.range g.numNodes) b
      false false) :
    (∃ s k, t.2.1 = List.range' s k) ∧
    t.2.2.getLast?.map Block.dstNodes = some t.2.1 := by
  have hpass : dataloader_pass g seed [none] (List.range g.numNodes) b
      false false
      = (chunk b (List.range g.numNodes)).map (fun batch =>
          (match (sample_blocks g seed [none] batch).head? with
           | some blk => blk.srcNodes
           | none => batch,
           batch, sample_blocks g seed [none] batch)) := rfl
  rw [hpass] at ht
  obtain ⟨batch, hbatch, rfl⟩ := List.mem_map.mp ht
  constructor
  · rw [List.range_eq_range'] at hbatch
    exact chunk_range'_mem b 0 g.numNodes batch hbatch
  · obtain ⟨_, _, hlast⟩ := sampleLoop_spec g seed [none] batch
    exact hlast

/-- The second triple yielded by the full-neighbor inference pass over the
10-node example graph with batch size 4. -/
def exampleTriple : List Nat × List Nat × List Block :=
  (dataloader_pass exampleGraph 0 [none] (List.range exampleGraph.numNodes)
    4 false false).getD 1 ([], [], [])

/-- Witness for C7 at the second batch of the pass (output nodes
[4, 5, 6, 7]). -/
theorem inference_output_contiguous_witness :
    (0 : Nat) < 4 ∧
    exampleTriple ∈ dataloader_pass exampleGraph 0 [none]
      (List.range exampleGraph.numNodes) 4 false false ∧
    ((∃ s k, exampleTriple.2.1 = List.range' s k) ∧
      exampleTriple.2.2.getLast?.map Block.dstNodes
        = some exampleTriple.2.1) :=
  ⟨by decide, by decide,
    inference_output_contiguous exampleGraph 0 4 (by decide) exampleTriple
      (by decide)⟩
